import Mathlib

/-!
Verification of `src/comps/loops.py` and `src/test.py`.

The Python code is shallowly embedded:

* Python integers become `ℤ` (or `ℕ` where the domain is naturally the
  naturals).
* Python's true division `n / 2` produces a float; for every integer `n`
  with `|n| < 2^53` the whole expression `n - (n/2)*2` is computed exactly
  by IEEE double arithmetic (the halves and the products are exactly
  representable and the final subtraction is exact by Sterbenz's lemma), so
  on that domain it coincides with exact rational arithmetic, which is how
  we embed it, over `ℚ`.  All inputs the claims range over stay far below
  `2^53`.
* Python's floor division `//` becomes `Int.fdiv`.
* Python `while` loops become fuel-indexed recursions returning `Option`,
  with `none` meaning the fuel ran out; termination of the source loop is
  the statement that some amount of fuel yields `some`.
-/

/-- Embeds `is_even` from `src/comps/loops.py`:
`return n - (n/2) *2 == 0`, with `/` Python's true division, exact over `ℚ`
for the inputs the program uses. -/
def is_even (n : ℤ) : Bool :=
  decide ((n : ℚ) - (n : ℚ) / 2 * 2 = 0)

/-- Embeds the `while n != 1` loop of `collatz_length`, carrying the
running `length`; `fuel` bounds the number of iterations. -/
def collatz_loop : ℕ → ℤ → ℕ → Option ℕ
  | 0, _, _ => none
  | fuel + 1, n, length =>
    if n = 1 then some length
    else collatz_loop fuel (if is_even n then Int.fdiv n 2 else 3 * n + 1) (length + 1)

/-- Embeds `collatz_length` from `src/comps/loops.py`: `length` starts at 1
and the loop runs until `n == 1`. -/
def collatz_length (fuel : ℕ) (n : ℤ) : Option ℕ :=
  collatz_loop fuel n 1

/-- Embeds the `while i <= limit` scan of `find_longest_collatz`; `cfuel`
is the fuel handed to each inner `collatz_length` call and `fuel` bounds
the outer iterations. -/
def find_longest_loop (cfuel : ℕ) : ℕ → ℤ → ℤ → ℤ → ℕ → Option (ℤ × ℕ)
  | 0, _, _, _, _ => none
  | fuel + 1, limit, i, number, max_length =>
    if i ≤ limit then
      match collatz_length cfuel i with
      | none => none
      | some length =>
        if max_length < length then
          find_longest_loop cfuel fuel limit (i + 1) i length
        else
          find_longest_loop cfuel fuel limit (i + 1) number max_length
    else
      some (number, max_length)

/-- Embeds `find_longest_collatz` from `src/comps/loops.py`:
`max_length = 0`, `number = 1`, `i = 1`, then the scan loop, returning
`(number, max_length)`. -/
def find_longest_collatz (cfuel fuel : ℕ) (limit : ℤ) : Option (ℤ × ℕ) :=
  find_longest_loop cfuel fuel limit 1 1 0

/-- Embeds `fibo` from `src/test.py` on the naturals (the domain the script
uses): `if n<=1: return n` then `return fibo(n-2) + fibo(n-1)`. -/
def fibo (n : ℕ) : ℕ :=
  if n ≤ 1 then n
  else fibo (n - 2) + fibo (n - 1)
  termination_by n
  decreasing_by
    all_goals omega

/-- Embeds `fibo` from `src/test.py` on all Python integers, fuel-indexed
so that non-termination would be expressible as `none` for every fuel. -/
def fibo_fuel : ℕ → ℤ → Option ℤ
  | 0, _ => none
  | fuel + 1, n =>
    if n ≤ 1 then some n
    else
      match fibo_fuel fuel (n - 2), fibo_fuel fuel (n - 1) with
      | some a, some b => some (a + b)
      | _, _ => none

/-- The spec's reference Collatz step and length ("even → n div 2, odd →
3n+1, count starts at 1, stop at 1"), used to compare the code against the
specified behaviour. -/
def spec_collatz_loop : ℕ → ℕ → ℕ → Option ℕ
  | 0, _, _ => none
  | fuel + 1, n, length =>
    if n = 1 then some length
    else spec_collatz_loop fuel (if n % 2 = 0 then n / 2 else 3 * n + 1) (length + 1)

/-- Reference Collatz sequence length from the spec, `fuel`-bounded. -/
def spec_collatz_length (fuel n : ℕ) : Option ℕ :=
  spec_collatz_loop fuel n 1

/-- The float-arithmetic slip in `is_even`: the subtraction
`n - (n/2)*2` is identically zero over exact arithmetic, so `is_even`
answers `true` on every integer, even and odd alike. -/
theorem is_even_true (n : ℤ) : is_even n = true := by
  unfold is_even
  rw [decide_eq_true_eq]
  ring

/-- Computable mirror of `collatz_loop` with the (always-taken) even
branch inlined, used to evaluate the embedded code on concrete inputs
without reducing rational arithmetic in the kernel. -/
def halve_loop : ℕ → ℤ → ℕ → Option ℕ
  | 0, _, _ => none
  | fuel + 1, n, length =>
    if n = 1 then some length
    else halve_loop fuel (Int.fdiv n 2) (length + 1)

theorem collatz_loop_eq_halve :
    ∀ (fuel : ℕ) (n : ℤ) (length : ℕ),
      collatz_loop fuel n length = halve_loop fuel n length := by
  intro fuel
  induction fuel with
  | zero => intro n length; rfl
  | succ f ih =>
    intro n length
    simp only [collatz_loop, halve_loop, is_even_true, if_true, ih]

/-- Computable mirror of `find_longest_loop` built on `halve_loop`. -/
def find_longest_loop_h (cfuel : ℕ) : ℕ → ℤ → ℤ → ℤ → ℕ → Option (ℤ × ℕ)
  | 0, _, _, _, _ => none
  | fuel + 1, limit, i, number, max_length =>
    if i ≤ limit then
      match halve_loop cfuel i 1 with
      | none => none
      | some length =>
        if max_length < length then
          find_longest_loop_h cfuel fuel limit (i + 1) i length
        else
          find_longest_loop_h cfuel fuel limit (i + 1) number max_length
    else
      some (number, max_length)

theorem find_longest_loop_eq_h :
    ∀ (cfuel fuel : ℕ) (limit i number : ℤ) (max_length : ℕ),
      find_longest_loop cfuel fuel limit i number max_length =
        find_longest_loop_h cfuel fuel limit i number max_length := by
  intro cfuel fuel
  induction fuel with
  | zero => intro limit i number max_length; rfl
  | succ f ih =>
    intro limit i number max_length
    simp only [find_longest_loop, find_longest_loop_h, collatz_length,
      collatz_loop_eq_halve, ih]

/-- With the even branch always taken, the loop value on `[2^k, 2^(k+1))`
is exactly `len + k` (the source's `length` counts `k` halvings). -/
theorem halve_loop_val :
    ∀ (k : ℕ) (i : ℤ) (len fuel : ℕ), 2 ^ k ≤ i → i < 2 ^ (k + 1) → k < fuel →
      halve_loop fuel i len = some (len + k) := by
  intro k
  induction k with
  | zero =>
    intro i len fuel hlo hhi hfuel
    obtain ⟨f, rfl⟩ : ∃ f, fuel = f + 1 := ⟨fuel - 1, by omega⟩
    have hi : i = 1 := by norm_num at hlo hhi; omega
    subst hi
    simp [halve_loop]
  | succ k ih =>
    intro i len fuel hlo hhi hfuel
    obtain ⟨f, rfl⟩ : ∃ f, fuel = f + 1 := ⟨fuel - 1, by omega⟩
    have hp : (0 : ℤ) < 2 ^ k := by positivity
    have h2 : (2 : ℤ) ^ (k + 1) = 2 * 2 ^ k := by ring
    have h4 : (2 : ℤ) ^ (k + 1 + 1) = 4 * 2 ^ k := by ring
    rw [h2] at hlo
    rw [h4] at hhi
    have hne : i ≠ 1 := by omega
    rw [halve_loop, if_neg hne, Int.fdiv_eq_ediv _ (by norm_num)]
    rw [ih (i / 2) (len + 1) f (by omega) (by rw [h2]; omega) (by omega)]
    congr 1
    omega

/-- Bound form: on `[1, 2^k)` the loop value is strictly below `len + k`. -/
theorem halve_loop_le :
    ∀ (k : ℕ) (i : ℤ) (len fuel : ℕ), 1 ≤ i → i < 2 ^ k → k < fuel →
      ∃ L, halve_loop fuel i len = some L ∧ L < len + k := by
  intro k
  induction k with
  | zero =>
    intro i len fuel hlo hhi _
    norm_num at hhi
    omega
  | succ k ih =>
    intro i len fuel hlo hhi hfuel
    obtain ⟨f, rfl⟩ : ∃ f, fuel = f + 1 := ⟨fuel - 1, by omega⟩
    by_cases hi : i = 1
    · subst hi
      exact ⟨len, by simp [halve_loop], by omega⟩
    · have hp : (0 : ℤ) < 2 ^ k := by positivity
      have h2 : (2 : ℤ) ^ (k + 1) = 2 * 2 ^ k := by ring
      rw [h2] at hhi
      rw [halve_loop, if_neg hi, Int.fdiv_eq_ediv _ (by norm_num)]
      obtain ⟨L, hL, hlt⟩ := ih (i / 2) (len + 1) f (by omega) (by omega) (by omega)
      exact ⟨L, hL, by omega⟩

/-- The source loop terminates on every positive start given enough fuel. -/
theorem collatz_length_some (cfuel : ℕ) (n : ℤ)
    (h1 : 1 ≤ n) (h2 : n < (cfuel : ℤ)) :
    ∃ L, collatz_length cfuel n = some L := by
  have hc2 : 2 ≤ cfuel := by omega
  have hk : ((cfuel - 1 : ℕ) : ℤ) + 1 = (cfuel : ℤ) := by omega
  have hpow : ((cfuel - 1 : ℕ) : ℤ) < 2 ^ (cfuel - 1) := by
    exact_mod_cast Nat.lt_two_pow (cfuel - 1)
  obtain ⟨L, hL, _⟩ := halve_loop_le (cfuel - 1) n 1 cfuel h1 (by omega) (by omega)
  exact ⟨L, by rw [collatz_length, collatz_loop_eq_halve]; exact hL⟩

/-- Loop invariant for the scan of `find_longest_collatz`: starting from a
state whose `number`/`max_length` correctly summarise the prefix `[1, i)`,
the loop returns the least argmax of `collatz_length` over `[1, limit]`
together with the maximum. -/
theorem scan_inv :
    ∀ (fuel cfuel : ℕ) (limit i number : ℤ) (maxL : ℕ),
      1 ≤ number → number < i → i ≤ limit + 1 →
      limit + 2 ≤ i + (fuel : ℤ) →
      limit < (cfuel : ℤ) →
      collatz_length cfuel number = some maxL →
      (∀ m, 1 ≤ m → m < i → ∀ L, collatz_length cfuel m = some L → L ≤ maxL) →
      (∀ m, 1 ≤ m → m < number → ∀ L, collatz_length cfuel m = some L → L < maxL) →
      ∃ num maxL2,
        find_longest_loop cfuel fuel limit i number maxL = some (num, maxL2) ∧
        1 ≤ num ∧ num ≤ limit ∧
        collatz_length cfuel num = some maxL2 ∧
        (∀ m, 1 ≤ m → m ≤ limit → ∀ L, collatz_length cfuel m = some L → L ≤ maxL2) ∧
        (∀ m, 1 ≤ m → m < num → ∀ L, collatz_length cfuel m = some L → L < maxL2) := by
  intro fuel
  induction fuel with
  | zero =>
    intro cfuel limit i number maxL _ _ h3 hf _ _ _ _
    exfalso
    push_cast at hf
    omega
  | succ f ih =>
    intro cfuel limit i number maxL h1 h2 h3 hf hcf hnum hpast hstrict
    rw [find_longest_loop]
    by_cases hle : i ≤ limit
    · rw [if_pos hle]
      obtain ⟨Li, hLi⟩ := collatz_length_some cfuel i (by omega) (by omega)
      rw [hLi]
      dsimp only
      by_cases hgt : maxL < Li
      · rw [if_pos hgt]
        apply ih cfuel limit (i + 1) i Li (by omega) (by omega) (by omega)
          (by push_cast at hf ⊢; omega) hcf hLi
        · intro m hm1 hm2 L hL
          rcases lt_or_eq_of_le (by omega : m ≤ i) with hmi | hmi
          · exact le_trans (hpast m hm1 hmi L hL) (by omega)
          · subst hmi
            rw [hLi] at hL
            have hLL : Li = L := Option.some.inj hL
            omega
        · intro m hm1 hm2 L hL
          exact lt_of_le_of_lt (hpast m hm1 (by omega) L hL) hgt
      · rw [if_neg hgt]
        apply ih cfuel limit (i + 1) number maxL h1 (by omega) (by omega)
          (by push_cast at hf ⊢; omega) hcf hnum
        · intro m hm1 hm2 L hL
          rcases lt_or_eq_of_le (by omega : m ≤ i) with hmi | hmi
          · exact hpast m hm1 hmi L hL
          · subst hmi
            rw [hLi] at hL
            have hLL : Li = L := Option.some.inj hL
            omega
        · exact hstrict
    · rw [if_neg hle]
      refine ⟨number, maxL, rfl, h1, by omega, hnum, ?_, hstrict⟩
      intro m hm1 hm2 L hL
      exact hpast m hm1 (by omega) L hL

/-- The first loop iteration always records `(1, 1)` because
`collatz_length 1 = 1 > 0`, so the scan invariant applies from `i = 2`. -/
theorem collatz_length_one (cfuel : ℕ) (h : 1 ≤ cfuel) :
    collatz_length cfuel 1 = some 1 := by
  obtain ⟨c, rfl⟩ : ∃ c, cfuel = c + 1 := ⟨cfuel - 1, by omega⟩
  rw [collatz_length, collatz_loop, if_pos rfl]

/-- Full characterisation of `find_longest_collatz` relative to the
program's own `collatz_length`, for every `limit ≥ 1` and enough fuel. -/
theorem find_longest_spec (limit : ℤ) (cfuel fuel : ℕ)
    (hl : 1 ≤ limit) (hcf : limit < (cfuel : ℤ)) (hf : limit + 2 ≤ (fuel : ℤ)) :
    ∃ num maxL,
      find_longest_collatz cfuel fuel limit = some (num, maxL) ∧
      1 ≤ num ∧ num ≤ limit ∧
      collatz_length cfuel num = some maxL ∧
      (∀ m, 1 ≤ m → m ≤ limit → ∀ L, collatz_length cfuel m = some L → L ≤ maxL) ∧
      (∀ m, 1 ≤ m → m < num → ∀ L, collatz_length cfuel m = some L → L < maxL) := by
  obtain ⟨f, rfl⟩ : ∃ f, fuel = f + 1 := ⟨fuel - 1, by omega⟩
  have hc1 : collatz_length cfuel 1 = some 1 := collatz_length_one cfuel (by omega)
  rw [find_longest_collatz, find_longest_loop, if_pos hl, hc1]
  dsimp only
  rw [if_pos (by omega : 0 < 1)]
  apply scan_inv f cfuel limit 2 1 1 (by omega) (by omega) (by omega)
    (by omega) hcf hc1
  · intro m hm1 hm2 L hL
    have hm : m = 1 := by omega
    subst hm
    rw [hc1] at hL
    have := Option.some.inj hL
    omega
  · intro m hm1 hm2 L hL
    omega

/-- The embedded `fibo` agrees with Mathlib's Fibonacci function. -/
theorem fibo_eq_fib : ∀ n : ℕ, fibo n = Nat.fib n := by
  intro n
  induction n using Nat.strong_induction_on with
  | _ n ih =>
    match n with
    | 0 => rw [fibo]; rfl
    | 1 => rw [fibo]; rfl
    | n + 2 =>
      rw [fibo]
      rw [if_neg (by omega)]
      have e2 : n + 2 - 2 = n := by omega
      have e1 : n + 2 - 1 = n + 1 := by omega
      rw [e2, e1, ih n (by omega), ih (n + 1) (by omega), Nat.fib_add_two]

/-- C1: the claim says `is_even n` agrees with `n % 2 == 0` on positive
integers.  The code uses Python's true division, so `is_even 3` is `true`
even though `3 % 2 ≠ 0`: the implemented test disagrees with the modulus
test already at `n = 3`. -/
theorem is_even_disagrees_with_parity :
    is_even 3 = true ∧ ¬((3 : ℤ) % 2 = 0) :=
  ⟨is_even_true 3, by decide⟩

/-- C2: the claim says `collatz_length n` is the reference Collatz length.
At `n = 3` the code returns 2 (it halves unconditionally because `is_even`
is always true) while the reference length of 3 is 8. -/
theorem collatz_length_disagrees_with_reference :
    collatz_length 10 3 = some 2 ∧ spec_collatz_length 10 3 = some 8 ∧
      (2 : ℕ) ≠ 8 := by
  refine ⟨?_, rfl, by decide⟩
  rw [collatz_length, collatz_loop_eq_halve]
  rfl

/-- C3: the claim says `find_longest_collatz 10000 = (6171, 262)`.  The
code actually returns `(8192, 14)`: with the broken parity test every
sequence just halves, so the length of `i` is `⌊log2 i⌋ + 1`, maximised
first at `8192`. -/
theorem find_longest_collatz_disagrees (cfuel fuel : ℕ)
    (hcf : (10000 : ℤ) < (cfuel : ℤ)) (hf : (10002 : ℤ) ≤ (fuel : ℤ)) :
    find_longest_collatz cfuel fuel 10000 = some (8192, 14) ∧
      some ((8192 : ℤ), (14 : ℕ)) ≠ some ((6171 : ℤ), (262 : ℕ)) := by
  refine ⟨?_, by decide⟩
  obtain ⟨num, maxL, heq, hn1, hn2, hnum, hall, hstrict⟩ :=
    find_longest_spec 10000 cfuel fuel (by norm_num) hcf (by omega)
  have h8192 : collatz_length cfuel 8192 = some 14 := by
    rw [collatz_length, collatz_loop_eq_halve]
    have hv := halve_loop_val 13 8192 1 cfuel (by norm_num) (by norm_num)
      (by omega)
    simpa using hv
  have h14le : 14 ≤ maxL := hall 8192 (by norm_num) (by norm_num) 14 h8192
  have hnumh : halve_loop cfuel num 1 = some maxL := by
    rw [collatz_length, collatz_loop_eq_halve] at hnum
    exact hnum
  have hmaxle : maxL ≤ 14 := by
    obtain ⟨L, hL, hlt⟩ := halve_loop_le 14 num 1 cfuel (by omega)
      (by norm_num; omega) (by omega)
    have hML : maxL = L := Option.some.inj (hnumh.symm.trans hL)
    omega
  have hmax : maxL = 14 := by omega
  have hnum8192 : num = 8192 := by
    rcases lt_trichotomy num 8192 with hlt | heqn | hgt
    · exfalso
      obtain ⟨L, hL, hlt13⟩ := halve_loop_le 13 num 1 cfuel (by omega)
        (by norm_num; omega) (by omega)
      have hML : maxL = L := Option.some.inj (hnumh.symm.trans hL)
      omega
    · exact heqn
    · exfalso
      have := hstrict 8192 (by norm_num) hgt 14 h8192
      omega
  rw [hnum8192, hmax] at heq
  exact heq

/-- C3 witness: concrete sufficient fuel. -/
theorem find_longest_collatz_disagrees_witness :
    find_longest_collatz 10001 10002 10000 = some (8192, 14) ∧
      some ((8192 : ℤ), (14 : ℕ)) ≠ some ((6171 : ℤ), (262 : ℕ)) :=
  find_longest_collatz_disagrees 10001 10002 (by norm_num) (by norm_num)

/-- C4: `fibo` satisfies the reference Fibonacci definition
(`fibo 0 = 0`, `fibo 1 = 1`, the two-step recurrence) and produces the 20
listed values `fibo 0 .. fibo 19`. -/
theorem fibo_correct :
    fibo 0 = 0 ∧ fibo 1 = 1 ∧
      (∀ n : ℕ, fibo (n + 2) = fibo n + fibo (n + 1)) ∧
      (List.range 20).map fibo =
        [0, 1, 1, 2, 3, 5, 8, 13, 21, 34, 55, 89, 144, 233, 377, 610, 987,
          1597, 2584, 4181] := by
  have hf : fibo = Nat.fib := funext fibo_eq_fib
  refine ⟨by rw [fibo]; norm_num, by rw [fibo]; norm_num, ?_, ?_⟩
  · intro n
    rw [fibo]
    rw [if_neg (by omega)]
    have e2 : n + 2 - 2 = n := by omega
    have e1 : n + 2 - 1 = n + 1 := by omega
    rw [e2, e1]
  · rw [hf]
    decide

/-- C5 counterexample: the claim says `fibo` never terminates on negative
inputs, but `fibo (-1)` returns immediately (with one unit of fuel) since
the base case `n ≤ 1` already covers every negative integer. -/
theorem fibo_neg_one_terminates : fibo_fuel 1 (-1) = some (-1) := rfl

/-- C5 amended: for every negative `n`, `fibo n` hits the base case
`n ≤ 1` at once and returns `n`; it terminates on every negative input. -/
theorem fibo_negative_returns_argument (fuel : ℕ) (n : ℤ)
    (hfuel : 1 ≤ fuel) (hn : n < 0) : fibo_fuel fuel n = some n := by
  obtain ⟨f, rfl⟩ : ∃ f, fuel = f + 1 := ⟨fuel - 1, by omega⟩
  rw [fibo_fuel, if_pos (by omega)]

/-- C5 witness. -/
theorem fibo_negative_returns_argument_witness :
    fibo_fuel 3 (-2) = some (-2) :=
  fibo_negative_returns_argument 3 (-2) (by norm_num) (by norm_num)

/-- C6: first-found-wins tie-break.  If `j < k ≤ limit` both attain the
maximum sequence length and no integer below `j` attains it, the scan
returns `j`, the smaller of the tied pair. -/
theorem find_longest_tie_break (limit j k : ℤ) (cfuel fuel : ℕ)
    (num : ℤ) (maxL Lj : ℕ)
    (hl : 1 ≤ limit) (hcf : limit < (cfuel : ℤ)) (hf : limit + 2 ≤ (fuel : ℤ))
    (hj1 : 1 ≤ j) (hjk : j < k) (hk : k ≤ limit)
    (hres : find_longest_collatz cfuel fuel limit = some (num, maxL))
    (hLj : collatz_length cfuel j = some Lj)
    (_hLk : collatz_length cfuel k = some Lj)
    (hmax : ∀ m, 1 ≤ m → m ≤ limit → ∀ L,
      collatz_length cfuel m = some L → L ≤ Lj)
    (hfirst : ∀ m, 1 ≤ m → m < j → ∀ L,
      collatz_length cfuel m = some L → L < Lj) :
    num = j := by
  obtain ⟨num2, maxL2, heq, hn1, hn2, hnum, hall, hstrict⟩ :=
    find_longest_spec limit cfuel fuel hl hcf hf
  rw [hres] at heq
  have hp := Option.some.inj heq
  have hnn : num = num2 := congrArg Prod.fst hp
  have hmm : maxL = maxL2 := congrArg Prod.snd hp
  subst hnn
  subst hmm
  have ha : maxL ≤ Lj := hmax num hn1 hn2 maxL hnum
  have hb : Lj ≤ maxL := hall j hj1 (by omega) Lj hLj
  rcases lt_trichotomy num j with hlt | heqj | hgt
  · have := hfirst num hn1 hlt maxL hnum
    omega
  · exact heqj
  · have := hstrict j hj1 hgt Lj hLj
    omega

/-- C6 witness: with `limit = 3` the lengths are 1, 2, 2, so `2` and `3`
tie at the maximum 2 and the scan returns the smaller one, `2`. -/
theorem find_longest_tie_break_witness : (2 : ℤ) = 2 := by
  have hc1 : collatz_length 4 1 = some 1 := by
    rw [collatz_length, collatz_loop_eq_halve]; rfl
  have hc2 : collatz_length 4 2 = some 2 := by
    rw [collatz_length, collatz_loop_eq_halve]; rfl
  have hc3 : collatz_length 4 3 = some 2 := by
    rw [collatz_length, collatz_loop_eq_halve]; rfl
  have hres : find_longest_collatz 4 5 3 = some (2, 2) := by
    rw [find_longest_collatz, find_longest_loop_eq_h]; rfl
  have hmax : ∀ m, 1 ≤ m → m ≤ (3 : ℤ) → ∀ L,
      collatz_length 4 m = some L → L ≤ 2 := by
    intro m hm1 hm2 L hL
    interval_cases m
    · rw [hc1] at hL
      have := Option.some.inj hL
      omega
    · rw [hc2] at hL
      have := Option.some.inj hL
      omega
    · rw [hc3] at hL
      have := Option.some.inj hL
      omega
  have hfirst : ∀ m, 1 ≤ m → m < (2 : ℤ) → ∀ L,
      collatz_length 4 m = some L → L < 2 := by
    intro m hm1 hm2 L hL
    have hm : m = 1 := by omega
    subst hm
    rw [hc1] at hL
    have := Option.some.inj hL
    omega
  exact find_longest_tie_break 3 2 3 4 5 2 2 2 (by norm_num) (by norm_num)
    (by norm_num) (by norm_num) (by norm_num) (by norm_num) hres hc2 hc3
    hmax hfirst

/-- C7: the `collatz_length` loop terminates for every start in
`[1, 10000]`: some finite fuel makes the embedded loop return a value. -/
theorem collatz_length_terminates_in_range (n : ℤ)
    (h1 : 1 ≤ n) (h2 : n ≤ 10000) :
    ∃ fuel L, collatz_length fuel n = some L :=
  ⟨10001, collatz_length_some 10001 n h1 (by push_cast; omega)⟩

/-- C7 witness. -/
theorem collatz_length_terminates_in_range_witness :
    ∃ fuel L, collatz_length fuel 27 = some L :=
  collatz_length_terminates_in_range 27 (by norm_num) (by norm_num)

/-- C8: for `limit < 1` the loop body never runs and the function returns
`(1, 0)` instead of rejecting the input. -/
theorem find_longest_degenerate (limit : ℤ) (cfuel fuel : ℕ)
    (hlim : limit < 1) (hfuel : 1 ≤ fuel) :
    find_longest_collatz cfuel fuel limit = some (1, 0) := by
  obtain ⟨f, rfl⟩ : ∃ f, fuel = f + 1 := ⟨fuel - 1, by omega⟩
  rw [find_longest_collatz, find_longest_loop, if_neg (by omega)]

/-- C8 witness. -/
theorem find_longest_degenerate_witness :
    find_longest_collatz 0 1 0 = some (1, 0) :=
  find_longest_degenerate 0 0 1 (by norm_num) (by norm_num)

/-- C9: `find_longest_collatz 1 = (1, 1)`. -/
theorem find_longest_at_one (cfuel fuel : ℕ)
    (hc : 1 ≤ cfuel) (hfuel : 2 ≤ fuel) :
    find_longest_collatz cfuel fuel 1 = some (1, 1) := by
  obtain ⟨f, rfl⟩ : ∃ f, fuel = f + 1 + 1 := ⟨fuel - 2, by omega⟩
  have hc1 : collatz_length cfuel 1 = some 1 := collatz_length_one cfuel hc
  rw [find_longest_collatz, find_longest_loop, if_pos (by norm_num), hc1]
  dsimp only
  rw [if_pos (by omega : 0 < 1)]
  rw [find_longest_loop, if_neg (by norm_num : ¬(1 + 1 : ℤ) ≤ 1)]

/-- C9 witness. -/
theorem find_longest_at_one_witness :
    find_longest_collatz 1 2 1 = some (1, 1) :=
  find_longest_at_one 1 2 (by norm_num) (by norm_num)

/-- C10: for every `limit ≥ 1` (and enough fuel) the returned pair is
internally consistent with the program's own `collatz_length`: the number
lies in `[1, limit]`, its length is the returned maximum, every scanned
length is defined and bounded by the maximum, and every smaller number has
a strictly smaller length. -/
theorem find_longest_internally_consistent (limit : ℤ) (cfuel fuel : ℕ)
    (hl : 1 ≤ limit) (hcf : limit < (cfuel : ℤ)) (hf : limit + 2 ≤ (fuel : ℤ)) :
    ∃ num maxL,
      find_longest_collatz cfuel fuel limit = some (num, maxL) ∧
      1 ≤ num ∧ num ≤ limit ∧
      collatz_length cfuel num = some maxL ∧
      (∀ m, 1 ≤ m → m ≤ limit →
        ∃ L, collatz_length cfuel m = some L ∧ L ≤ maxL) ∧
      (∀ m, 1 ≤ m → m < num → ∀ L,
        collatz_length cfuel m = some L → L < maxL) := by
  obtain ⟨num, maxL, heq, h1, h2, h3, h4, h5⟩ :=
    find_longest_spec limit cfuel fuel hl hcf hf
  refine ⟨num, maxL, heq, h1, h2, h3, ?_, h5⟩
  intro m hm1 hm2
  obtain ⟨L, hL⟩ := collatz_length_some cfuel m hm1 (by omega)
  exact ⟨L, hL, h4 m hm1 hm2 L hL⟩

/-- C10 witness. -/
theorem find_longest_internally_consistent_witness :
    ∃ num maxL,
      find_longest_collatz 4 5 3 = some (num, maxL) ∧
      1 ≤ num ∧ num ≤ 3 ∧
      collatz_length 4 num = some maxL ∧
      (∀ m, 1 ≤ m → m ≤ 3 →
        ∃ L, collatz_length 4 m = some L ∧ L ≤ maxL) ∧
      (∀ m, 1 ≤ m → m < num → ∀ L,
        collatz_length 4 m = some L → L < maxL) :=
  find_longest_internally_consistent 3 4 5 (by norm_num) (by norm_num)
    (by norm_num)
